import Mathlib

/-!
Verification of the minutes-of-meeting generator's core routines.

The repository's algorithmic core consists of two small pure components:

* `app/conversation_builder.py`: `align_transcript_with_speakers`, a linear
  scan that merges transcript chunks with diarization segments.
* `app/summary.py`: `ConversationSummarizer`, a summarizer with greedy
  token-budget line packing (`_chunk_by_tokens`), a character-budget fallback
  (`_chunk_by_lines`), a safe truncation helper (`_safe_truncate`) and an
  extractive fallback (`_fallback_summary`).

Python strings are modelled as Lean `String`s; the Python string operations
the code uses (`splitlines`, `"\n".join`, `strip`, `rstrip`, slicing) are
embedded explicitly at the character-list level so that every step is
computable and provable.  Timestamps, which are Python floats used only
through order comparisons, are modelled as integers.  The transformers
pipeline and its tokenizer are modelled as abstract functions: the tokenizer
is an arbitrary per-line token-length estimate, and a pipeline run either
yields a summary string or fails (the code's broad `except` path).
-/

/-! ## Character-level embeddings of the Python string primitives -/

/-- Left strip: drop leading whitespace characters (Python `str.lstrip`). -/
def lstripChars (cs : List Char) : List Char :=
  cs.dropWhile Char.isWhitespace

/-- Right strip: drop trailing whitespace characters (Python `str.rstrip`). -/
def rstripChars (cs : List Char) : List Char :=
  (cs.reverse.dropWhile Char.isWhitespace).reverse

/-- Both-sided strip (Python `str.strip`). -/
def stripChars (cs : List Char) : List Char :=
  rstripChars (lstripChars cs)

/-- Core of line splitting: returns the first line and the remaining lines
of a character sequence, splitting at `'\n'` (Python `str.splitlines`). -/
def splitOnNlCore : List Char → List Char × List (List Char)
  | [] => ([], [])
  | c :: cs =>
    let r := splitOnNlCore cs
    if c = '\n' then ([], r.1 :: r.2) else (c :: r.1, r.2)

/-- Split a character sequence into its lines at `'\n'`. -/
def splitOnNl (cs : List Char) : List (List Char) :=
  (splitOnNlCore cs).1 :: (splitOnNlCore cs).2

/-- Join lines with `'\n'` (Python `"\n".join`). -/
def joinNlChars : List (List Char) → List Char
  | [] => []
  | [l] => l
  | l :: l2 :: ls => l ++ '\n' :: joinNlChars (l2 :: ls)

/-! ## String-level wrappers -/

/-- Python `text.splitlines()` (newline-terminated final lines produce a
trailing empty line here; the repository always filters blank lines right
after splitting, so the two conventions agree on all uses). -/
def pySplitlines (s : String) : List String :=
  (splitOnNl s.data).map String.mk

/-- Python `"\n".join(ls)`. -/
def pyJoinNl (ls : List String) : String :=
  String.mk (joinNlChars (ls.map String.data))

/-- Python `s.strip()`. -/
def pyStrip (s : String) : String :=
  String.mk (stripChars s.data)

/-- Python `s.rstrip()`. -/
def pyRstrip (s : String) : String :=
  String.mk (rstripChars s.data)

/-- Python slice `s[:n]`, including the negative-index convention. -/
def pySliceTo (s : String) (n : Int) : String :=
  if n < 0 then String.mk (s.data.take (s.data.length - n.natAbs))
  else String.mk (s.data.take n.toNat)

/-! ## Alignment (`app/conversation_builder.py`) -/

/-- A diarization segment: a dict with keys `start`, `end`, `speaker`. -/
structure Segment where
  start : Int
  «end» : Int
  speaker : String
deriving DecidableEq

/-- A transcript chunk: a dict with an optional pair under `timestamp`
(absent and `None` both modelled as `none`), optional `start`/`end`, and
optional `text`. -/
structure Chunk where
  timestamp : Option (Int × Int)
  start : Option Int
  «end» : Option Int
  text : Option String
deriving DecidableEq

/-- A merged conversation turn: exactly the four keys the code emits. -/
structure Turn where
  start : Int
  «end» : Int
  speaker : String
  text : String
deriving DecidableEq

/-- The chunk start used by the alignment: first component of `timestamp`
when present, otherwise `chunk.get("start", 0)`. -/
def chunkStartOf (c : Chunk) : Int :=
  match c.timestamp with
  | some ts => ts.1
  | none => c.start.getD 0

/-- The chunk end used by the alignment: second component of `timestamp`
when present, otherwise `chunk.get("end", 0)`. -/
def chunkEndOf (c : Chunk) : Int :=
  match c.timestamp with
  | some ts => ts.2
  | none => c.«end».getD 0

/-- The inner loop of `align_transcript_with_speakers`: scan the
diarization segments in order and return the speaker of the first segment
whose interval contains `t`, defaulting to `"unknown"`. -/
def findSpeaker (segments : List Segment) (t : Int) : String :=
  match segments with
  | [] => "unknown"
  | seg :: rest =>
    if seg.start ≤ t ∧ t ≤ seg.«end» then seg.speaker else findSpeaker rest t

/-- `align_transcript_with_speakers` from `app/conversation_builder.py`. -/
def align_transcript_with_speakers (transcript_chunks : List Chunk)
    (diarization_segments : List Segment) : List Turn :=
  transcript_chunks.map (fun chunk =>
    { start := chunkStartOf chunk
      «end» := chunkEndOf chunk
      speaker := findSpeaker diarization_segments (chunkStartOf chunk)
      text := chunk.text.getD "" })

/-! ## Summarizer (`app/summary.py`) -/

/-- The model tokenizer, abstracted: a per-string token-count estimate
(`len(tokenizer.encode(ln, add_special_tokens=False))`; the in-code
`except` fallback `max(1, len(ln) // 4)` is just one possible estimate) and
a `model_max_length` attribute. -/
structure Tokenizer where
  encode_len : String → Nat
  model_max_length : Nat

/-- The transformers summarization pipeline, abstracted: an optional
tokenizer attribute and a run function taking (text, min_length,
max_length) and producing either a `summary_text` or a failure (covering
both raised exceptions and malformed outputs). -/
structure Pipe where
  tokenizer : Option Tokenizer
  run : String → Nat → Nat → Option String

/-- `ConversationSummarizer` state: `self._pipe` (None when model loading
failed), `self.min_length`, `self.max_length`. -/
structure Summarizer where
  pipe : Option Pipe
  min_length : Nat
  max_length : Nat

/-- `getattr(self._pipe, "tokenizer", None)`. -/
def Summarizer.tokenizerOf (s : Summarizer) : Option Tokenizer :=
  s.pipe.bind Pipe.tokenizer

/-- `getattr(tokenizer, "model_max_length", 1024) or 1024` (the `or`
replaces a falsy value, i.e. 0, by 1024). -/
def Summarizer.modelMaxOf (s : Summarizer) : Nat :=
  match s.tokenizerOf with
  | none => 1024
  | some tk => if tk.model_max_length = 0 then 1024 else tk.model_max_length

/-- The non-blank lines of a text:
`[ln for ln in text.splitlines() if ln.strip()]`. -/
def nonblankLines (text : String) : List String :=
  (pySplitlines text).filter (fun ln => pyStrip ln ≠ "")

/-- The greedy packing loop of `_chunk_by_lines`: `buf` and `length` are
the loop state (`length` accumulates `len(ln) + 1` per buffered line);
flush `buf` whenever adding the next line would push `length` past
`max_chars`. -/
def packLines (max_chars : Nat) : List String → List String → Nat → List String
  | [], buf, _ => if buf.isEmpty then [] else [pyJoinNl buf]
  | ln :: rest, buf, length =>
    if buf ≠ [] ∧ length + ln.length + 1 > max_chars then
      pyJoinNl buf :: packLines max_chars rest [ln] (ln.length + 1)
    else
      packLines max_chars rest (buf ++ [ln]) (length + ln.length + 1)

/-- `ConversationSummarizer._chunk_by_lines`. -/
def chunk_by_lines (text : String) (max_chars : Nat) : List String :=
  let chunks := packLines max_chars (nonblankLines text) [] 0
  if chunks.isEmpty then [text] else chunks

/-- The greedy packing loop of `_chunk_by_tokens`: like `packLines` but
budgeted by the tokenizer's per-line token estimate. -/
def packTokens (enc : String → Nat) (max_tokens : Nat) :
    List String → List String → Nat → List String
  | [], current, _ => if current.isEmpty then [] else [pyJoinNl current]
  | ln :: rest, current, current_len =>
    if current ≠ [] ∧ current_len + enc ln > max_tokens then
      pyJoinNl current :: packTokens enc max_tokens rest [ln] (enc ln)
    else
      packTokens enc max_tokens rest (current ++ [ln]) (current_len + enc ln)

/-- `ConversationSummarizer._chunk_by_tokens`: falls back to
`_chunk_by_lines(text, max_chars=max_tokens * 4)` when the tokenizer is
unavailable. -/
def chunk_by_tokens (s : Summarizer) (text : String) (max_tokens : Nat) : List String :=
  match s.tokenizerOf with
  | none => chunk_by_lines text (max_tokens * 4)
  | some tk =>
    let chunks := packTokens tk.encode_len max_tokens (nonblankLines text) [] 0
    if chunks.isEmpty then [text] else chunks

/-- `ConversationSummarizer._safe_truncate` (the source's default for
`limit` is 400; callers rely on it, so `summarize` below passes 400
explicitly). -/
def safe_truncate (text : String) (limit : Int) : String :=
  if (text.length : Int) ≤ limit then text
  else pyRstrip (pySliceTo text (limit - 3)) ++ "..."

/-- `ConversationSummarizer._fallback_summary`. -/
def fallback_summary (text : String) : String :=
  let lines := ((pySplitlines text).filter (fun ln => pyStrip ln ≠ "")).map pyStrip
  if lines.isEmpty then "No content to summarize."
  else pyJoinNl (lines.take 5)

/-- `ConversationSummarizer.summarize`.  The input is `Option String`
because the code guards against `None` via `(text or "")`. -/
def summarize (s : Summarizer) (text : Option String) : String :=
  let cleaned := pyStrip (text.getD "")
  if cleaned = "" then "No content to summarize."
  else
    match s.pipe with
    | none => fallback_summary cleaned
    | some p =>
      let chunks := chunk_by_tokens s cleaned (max 256 (min 900 (s.modelMaxOf - 64)))
      let chunkSummaries := chunks.map (fun chunk =>
        match p.run chunk s.min_length s.max_length with
        | some outText => pyStrip outText
        | none => safe_truncate chunk 400)
      if chunkSummaries.isEmpty then fallback_summary cleaned
      else
        let combined := pyJoinNl chunkSummaries
        if chunkSummaries.length = 1 then combined
        else
          match p.run combined (max 20 (s.min_length / 2)) (max 60 (s.max_length / 2)) with
          | some outText => pyStrip outText
          | none => combined

/-- The token measure of a chunk under a per-line estimate `enc`: the sum
of `enc` over the chunk's lines — the same estimate `_chunk_by_tokens`
accumulates in `current_len` while packing. -/
def tokenMeasure (enc : String → Nat) (chunk : String) : Nat :=
  ((pySplitlines chunk).map enc).sum

/-- Character-level form of `[ln.strip() for ln in lines if ln.strip()]`:
keep the lines with non-empty strip, stripped. -/
def nbslList (ls : List (List Char)) : List (List Char) :=
  (ls.filter (fun l => stripChars l ≠ [])).map stripChars

/-- Append a character to the last line of a line list (the effect on
`splitOnNl` of appending a non-newline character to the text). -/
def snocLast (ls : List (List Char)) (x : Char) : List (List Char) :=
  match ls with
  | [] => [[x]]
  | [l] => [l ++ [x]]
  | l :: l2 :: ls => l :: snocLast (l2 :: ls) x

/-! ## Concrete instances used by witnesses -/

/-- A summarizer whose model pipeline failed to load. -/
def sm0 : Summarizer := ⟨none, 30, 180⟩

/-- A concrete tokenizer estimating one token per character. -/
def tok1 : Tokenizer := ⟨fun s => s.length, 1024⟩

/-- A pipeline carrying `tok1` whose runs always fail. -/
def pipe1 : Pipe := ⟨some tok1, fun _ _ _ => none⟩

/-- A summarizer with an available pipeline and tokenizer. -/
def sm1 : Summarizer := ⟨some pipe1, 30, 180⟩

/-- A transcript with one chunk starting at time 5 (via `start`/`end`). -/
def cs0 : List Chunk := [⟨none, some 5, some 7, some "hi"⟩]

/-- A diarization whose only segment `[0, 3]` misses time 5. -/
def ss0 : List Segment := [⟨0, 3, "A"⟩]

/-- A transcript with one chunk carrying a `timestamp` pair `(5, 9)`. -/
def cs1 : List Chunk := [⟨some (5, 9), none, none, some "yo"⟩]

/-- A diarization where both the second and third segments contain time 5;
the scan must pick the second (the first in list order that matches). -/
def ss1 : List Segment := [⟨0, 3, "A"⟩, ⟨2, 9, "B"⟩, ⟨4, 9, "C"⟩]

/-! ## Lemmas about the alignment -/

/-- The aligned list is the image of a `map`, so its entries are exactly the
turns built from the corresponding chunks. -/
theorem align_get_eq (tcs : List Chunk) (segs : List Segment) (i : Nat)
    (hi : i < tcs.length)
    (hi2 : i < (align_transcript_with_speakers tcs segs).length) :
    (align_transcript_with_speakers tcs segs).get ⟨i, hi2⟩ =
      ⟨chunkStartOf (tcs.get ⟨i, hi⟩), chunkEndOf (tcs.get ⟨i, hi⟩),
       findSpeaker segs (chunkStartOf (tcs.get ⟨i, hi⟩)),
       ((tcs.get ⟨i, hi⟩).text).getD ""⟩ := by
  simp [align_transcript_with_speakers, List.get_eq_getElem]

/-- When no segment's interval contains `t`, the scan keeps its initial
`"unknown"` label. -/
theorem findSpeaker_eq_unknown (segs : List Segment) (t : Int)
    (h : ∀ seg ∈ segs, ¬ (seg.start ≤ t ∧ t ≤ seg.«end»)) :
    findSpeaker segs t = "unknown" := by
  induction segs with
  | nil => rfl
  | cons seg rest ih =>
    rw [findSpeaker, if_neg (h seg (List.mem_cons_self seg rest))]
    exact ih (fun s hs => h s (List.mem_cons_of_mem _ hs))

/-- The scan's `break` makes the first matching segment win. -/
theorem findSpeaker_first (pre : List Segment) (seg : Segment)
    (post : List Segment) (t : Int)
    (hpre : ∀ s ∈ pre, ¬ (s.start ≤ t ∧ t ≤ s.«end»))
    (hseg : seg.start ≤ t ∧ t ≤ seg.«end») :
    findSpeaker (pre ++ seg :: post) t = seg.speaker := by
  induction pre with
  | nil => rw [List.nil_append, findSpeaker, if_pos hseg]
  | cons s rest ih =>
    rw [List.cons_append, findSpeaker, if_neg (hpre s (List.mem_cons_self s rest))]
    exact ih (fun x hx => hpre x (List.mem_cons_of_mem _ hx))

/-- Claim C2: if no diarization segment's interval `[start, end]` contains a
chunk's start time, the aligned turn for that chunk has speaker exactly
`"unknown"`. -/
theorem claim_C2 (tcs : List Chunk) (segs : List Segment) (i : Nat)
    (hi : i < tcs.length)
    (hi2 : i < (align_transcript_with_speakers tcs segs).length)
    (hno : ∀ seg ∈ segs,
      ¬ (seg.start ≤ chunkStartOf (tcs.get ⟨i, hi⟩) ∧
         chunkStartOf (tcs.get ⟨i, hi⟩) ≤ seg.«end»)) :
    ((align_transcript_with_speakers tcs segs).get ⟨i, hi2⟩).speaker = "unknown" := by
  rw [align_get_eq tcs segs i hi hi2]
  exact findSpeaker_eq_unknown segs _ hno

/-- Witness for C2 at a concrete transcript and diarization. -/
theorem claim_C2_witness :
    ((align_transcript_with_speakers cs0 ss0).get ⟨0, by decide⟩).speaker = "unknown" :=
  claim_C2 cs0 ss0 0 (by decide) (by decide) (by decide)

/-- Claim C3: when the chunk's start time is contained in at least one
segment, the aligned turn carries the speaker of the first such segment in
list order, regardless of later segments that also contain it. -/
theorem claim_C3 (tcs : List Chunk) (segs : List Segment) (i : Nat)
    (hi : i < tcs.length)
    (hi2 : i < (align_transcript_with_speakers tcs segs).length)
    (pre : List Segment) (seg : Segment) (post : List Segment)
    (hsplit : segs = pre ++ seg :: post)
    (hpre : ∀ s ∈ pre,
      ¬ (s.start ≤ chunkStartOf (tcs.get ⟨i, hi⟩) ∧
         chunkStartOf (tcs.get ⟨i, hi⟩) ≤ s.«end»))
    (hseg : seg.start ≤ chunkStartOf (tcs.get ⟨i, hi⟩) ∧
        chunkStartOf (tcs.get ⟨i, hi⟩) ≤ seg.«end») :
    ((align_transcript_with_speakers tcs segs).get ⟨i, hi2⟩).speaker = seg.speaker := by
  rw [align_get_eq tcs segs i hi hi2]
  subst hsplit
  exact findSpeaker_first pre seg post _ hpre hseg

/-- Witness for C3: the segment `(2, 9, "B")` is the first match for time 5
even though `(4, 9, "C")` also contains it. -/
theorem claim_C3_witness :
    ((align_transcript_with_speakers cs1 ss1).get ⟨0, by decide⟩).speaker = "B" :=
  claim_C3 cs1 ss1 0 (by decide) (by decide)
    [⟨0, 3, "A"⟩] ⟨2, 9, "B"⟩ [⟨4, 9, "C"⟩] (by decide) (by decide) (by decide)

/-- Claim C5: the aligned list has the same length as the transcript, in
order, and each element is a `Turn` (a record with exactly the fields
`start`, `end`, `speaker`, `text`) whose `text` is the chunk's `text`
value, defaulting to `""` when absent. -/
theorem claim_C5 (tcs : List Chunk) (segs : List Segment) :
    (align_transcript_with_speakers tcs segs).length = tcs.length ∧
    ∀ i (hi : i < tcs.length)
      (hi2 : i < (align_transcript_with_speakers tcs segs).length),
      (align_transcript_with_speakers tcs segs).get ⟨i, hi2⟩ =
        ⟨chunkStartOf (tcs.get ⟨i, hi⟩), chunkEndOf (tcs.get ⟨i, hi⟩),
         findSpeaker segs (chunkStartOf (tcs.get ⟨i, hi⟩)),
         ((tcs.get ⟨i, hi⟩).text).getD ""⟩ := by
  refine ⟨by simp [align_transcript_with_speakers], ?_⟩
  intro i hi hi2
  exact align_get_eq tcs segs i hi hi2

/-- Witness for C5 at a concrete transcript and diarization. -/
theorem claim_C5_witness :
    (align_transcript_with_speakers cs0 ss0).length = cs0.length ∧
    (align_transcript_with_speakers cs0 ss0).get ⟨0, by decide⟩ =
      ⟨chunkStartOf (cs0.get ⟨0, by decide⟩), chunkEndOf (cs0.get ⟨0, by decide⟩),
       findSpeaker ss0 (chunkStartOf (cs0.get ⟨0, by decide⟩)),
       ((cs0.get ⟨0, by decide⟩).text).getD ""⟩ :=
  ⟨(claim_C5 cs0 ss0).1, (claim_C5 cs0 ss0).2 0 (by decide) (by decide)⟩

/-- Claim C6: with `timestamp` absent (or `None`), the turn's `start` and
`end` come from the chunk's `start`/`end` keys, defaulting to 0; with
`timestamp` present, they are its two components. -/
theorem claim_C6 (tcs : List Chunk) (segs : List Segment) (i : Nat)
    (hi : i < tcs.length)
    (hi2 : i < (align_transcript_with_speakers tcs segs).length) :
    ((tcs.get ⟨i, hi⟩).timestamp = none →
      ((align_transcript_with_speakers tcs segs).get ⟨i, hi2⟩).start =
        ((tcs.get ⟨i, hi⟩).start).getD 0 ∧
      ((align_transcript_with_speakers tcs segs).get ⟨i, hi2⟩).«end» =
        ((tcs.get ⟨i, hi⟩).«end»).getD 0) ∧
    ∀ a b, (tcs.get ⟨i, hi⟩).timestamp = some (a, b) →
      ((align_transcript_with_speakers tcs segs).get ⟨i, hi2⟩).start = a ∧
      ((align_transcript_with_speakers tcs segs).get ⟨i, hi2⟩).«end» = b := by
  rw [align_get_eq tcs segs i hi hi2]
  constructor
  · intro h
    rw [List.get_eq_getElem] at h
    simp [chunkStartOf, chunkEndOf, h]
  · intro a b h
    rw [List.get_eq_getElem] at h
    simp [chunkStartOf, chunkEndOf, h]

/-- Witness for C6 at concrete transcripts exercising both the
`timestamp`-absent and the `timestamp`-present branches. -/
theorem claim_C6_witness :
    (((align_transcript_with_speakers cs0 ss0).get ⟨0, by decide⟩).start =
        ((cs0.get ⟨0, by decide⟩).start).getD 0 ∧
      ((align_transcript_with_speakers cs0 ss0).get ⟨0, by decide⟩).«end» =
        ((cs0.get ⟨0, by decide⟩).«end»).getD 0) ∧
    (((align_transcript_with_speakers cs1 ss1).get ⟨0, by decide⟩).start = 5 ∧
      ((align_transcript_with_speakers cs1 ss1).get ⟨0, by decide⟩).«end» = 9) :=
  ⟨(claim_C6 cs0 ss0 0 (by decide) (by decide)).1 (by decide),
   (claim_C6 cs1 ss1 0 (by decide) (by decide)).2 5 9 (by decide)⟩

/-! ## Lemmas about line splitting and joining -/

/-- Unfolding `splitOnNlCore` on a non-newline head. -/
theorem splitOnNlCore_cons_ne (c : Char) (cs : List Char) (h : ¬ c = '\n') :
    splitOnNlCore (c :: cs) = (c :: (splitOnNlCore cs).1, (splitOnNlCore cs).2) := by
  simp [splitOnNlCore, h]

/-- A newline-free block prepends onto the first line of the remainder. -/
theorem splitOnNlCore_append (l cs : List Char) (h : '\n' ∉ l) :
    splitOnNlCore (l ++ cs) = (l ++ (splitOnNlCore cs).1, (splitOnNlCore cs).2) := by
  induction l with
  | nil => simp
  | cons c l ih =>
    have hc : ¬ c = '\n' := fun hcc => h (hcc ▸ List.mem_cons_self c l)
    have hl : '\n' ∉ l := fun hm => h (List.mem_cons_of_mem c hm)
    simp [List.cons_append, splitOnNlCore_cons_ne _ _ hc, ih hl]

/-- Splitting inverts joining on nonempty lists of newline-free lines. -/
theorem splitOnNl_join (ls : List (List Char)) (hne : ls ≠ [])
    (hnl : ∀ l ∈ ls, '\n' ∉ l) :
    splitOnNl (joinNlChars ls) = ls := by
  induction ls with
  | nil => exact absurd rfl hne
  | cons l ls ih =>
    cases ls with
    | nil =>
      show splitOnNl l = [l]
      have h := splitOnNlCore_append l [] (hnl l (by simp))
      simp only [List.append_nil] at h
      rw [splitOnNl, h]
      simp [splitOnNlCore]
    | cons l2 ls2 =>
      have hl : '\n' ∉ l := hnl l (by simp)
      have ih2 := ih (by simp) (fun x hx => hnl x (List.mem_cons_of_mem _ hx))
      show splitOnNl (l ++ '\n' :: joinNlChars (l2 :: ls2)) = l :: l2 :: ls2
      rw [splitOnNl] at ih2 ⊢
      rw [splitOnNlCore_append _ _ hl]
      simp only [splitOnNlCore, if_pos]
      simpa using ih2

/-- No produced line contains a newline. -/
theorem splitOnNlCore_no_nl (cs : List Char) :
    '\n' ∉ (splitOnNlCore cs).1 ∧ ∀ l ∈ (splitOnNlCore cs).2, '\n' ∉ l := by
  induction cs with
  | nil => simp [splitOnNlCore]
  | cons c cs ih =>
    by_cases hc : c = '\n'
    · subst hc
      simp only [splitOnNlCore, if_pos]
      refine ⟨by simp, ?_⟩
      intro l hl
      rcases List.mem_cons.mp hl with rfl | hl
      · exact ih.1
      · exact ih.2 l hl
    · rw [splitOnNlCore_cons_ne _ _ hc]
      refine ⟨?_, ih.2⟩
      intro hmem
      rcases List.mem_cons.mp hmem with h | h
      · exact hc h.symm
      · exact ih.1 h

/-- Every line of `splitOnNl` is newline-free. -/
theorem mem_splitOnNl_no_nl (cs : List Char) :
    ∀ l ∈ splitOnNl cs, '\n' ∉ l := by
  intro l hl
  rw [splitOnNl] at hl
  rcases List.mem_cons.mp hl with rfl | hl
  · exact (splitOnNlCore_no_nl cs).1
  · exact (splitOnNlCore_no_nl cs).2 l hl

/-- Length of a joined nonempty line list: sum of `len + 1` minus one. -/
theorem joinNl_length (ls : List (List Char)) (hne : ls ≠ []) :
    (joinNlChars ls).length + 1 = (ls.map (fun l => l.length + 1)).sum := by
  induction ls with
  | nil => exact absurd rfl hne
  | cons l ls ih =>
    cases ls with
    | nil => simp [joinNlChars]
    | cons l2 ls2 =>
      have h2 := ih (by simp)
      show (l ++ '\n' :: joinNlChars (l2 :: ls2)).length + 1 = _
      simp only [List.length_append, List.length_cons, List.map_cons, List.sum_cons] at h2 ⊢
      omega

/-! ## String-level versions -/

/-- Rebuilding a string from its characters is the identity. -/
theorem strMk_data (s : String) : String.mk s.data = s := rfl

/-- Length of a rebuilt string. -/
theorem strLength_mk (cs : List Char) : (String.mk cs).length = cs.length := rfl

/-- Joining a single line is the identity. -/
theorem pyJoinNl_singleton (l : String) : pyJoinNl [l] = l := rfl

/-- `pySplitlines` inverts `pyJoinNl` on nonempty newline-free line lists. -/
theorem pySplitlines_join (ls : List String) (hne : ls ≠ [])
    (hnl : ∀ l ∈ ls, '\n' ∉ l.data) :
    pySplitlines (pyJoinNl ls) = ls := by
  rw [pySplitlines, pyJoinNl]
  rw [show (String.mk (joinNlChars (ls.map String.data))).data
      = joinNlChars (ls.map String.data) from rfl]
  rw [splitOnNl_join (ls.map String.data) (by simpa using hne) ?_]
  · rw [List.map_map, show (String.mk ∘ String.data) = id from funext fun s => strMk_data s,
      List.map_id]
  · intro l hl
    rcases List.mem_map.mp hl with ⟨s, hs, rfl⟩
    exact hnl s hs

/-- Length of a joined nonempty string list. -/
theorem pyJoinNl_length (ls : List String) (hne : ls ≠ []) :
    (pyJoinNl ls).length + 1 = (ls.map (fun l => l.length + 1)).sum := by
  rw [pyJoinNl, strLength_mk, joinNl_length _ (by simpa using hne)]
  rw [List.map_map,
    show ((fun l : List Char => l.length + 1) ∘ String.data)
      = (fun l : String => l.length + 1) from funext fun s => rfl]

/-- Lines produced by `nonblankLines` are newline-free. -/
theorem nonblankLines_no_nl (text : String) :
    ∀ l ∈ nonblankLines text, '\n' ∉ l.data := by
  intro l hl
  rw [nonblankLines] at hl
  have hl2 := List.mem_of_mem_filter hl
  rw [pySplitlines] at hl2
  rcases List.mem_map.mp hl2 with ⟨l2, hmem, rfl⟩
  exact mem_splitOnNl_no_nl _ l2 hmem

/-! ## Budget behaviour of the greedy packers (claim C1) -/

/-- A flushed buffer either fits the character budget or is a single input
line. -/
theorem joined_buf_ok (max_chars : Nat) (L0 : List String) (buf : List String)
    (hne : buf ≠ [])
    (hbound : 2 ≤ buf.length → (buf.map (fun l => l.length + 1)).sum ≤ max_chars)
    (hbuf : ∀ l ∈ buf, l ∈ L0) :
    (pyJoinNl buf).length ≤ max_chars ∨ pyJoinNl buf ∈ L0 := by
  rcases buf with _ | ⟨l1, _ | ⟨l2, buf2⟩⟩
  · exact absurd rfl hne
  · right
    rw [pyJoinNl_singleton]
    exact hbuf l1 (by simp)
  · left
    have h2 : 2 ≤ (l1 :: l2 :: buf2).length := by
      simp only [List.length_cons]; omega
    have hsum := hbound h2
    have hlen := pyJoinNl_length (l1 :: l2 :: buf2) (by simp)
    omega

/-- Invariant proof for the `_chunk_by_lines` loop: with the accumulator in
sync with the buffer and multi-line buffers within budget, every emitted
chunk fits the budget or is one of the original lines. -/
theorem packLines_budget (max_chars : Nat) (L0 : List String) :
    ∀ (rest buf : List String) (acc : Nat),
      acc = (buf.map (fun l => l.length + 1)).sum →
      (2 ≤ buf.length → acc ≤ max_chars) →
      (∀ l ∈ buf, l ∈ L0) →
      (∀ l ∈ rest, l ∈ L0) →
      ∀ c ∈ packLines max_chars rest buf acc,
        c.length ≤ max_chars ∨ c ∈ L0 := by
  intro rest
  induction rest with
  | nil =>
    intro buf acc hacc hbound hbuf _ c hc
    simp only [packLines] at hc
    split at hc
    · exact absurd hc (List.not_mem_nil c)
    · next h =>
      rw [List.mem_singleton] at hc
      subst hc
      refine joined_buf_ok max_chars L0 buf ?_ ?_ hbuf
      · simpa [List.isEmpty_iff] using h
      · intro h2; rw [← hacc]; exact hbound h2
  | cons ln rest ih =>
    intro buf acc hacc hbound hbuf hrest c hc
    simp only [packLines] at hc
    split at hc
    · next hcond =>
      rcases List.mem_cons.mp hc with rfl | hc2
      · refine joined_buf_ok max_chars L0 buf hcond.1 ?_ hbuf
        intro h2; rw [← hacc]; exact hbound h2
      · refine ih [ln] (ln.length + 1) (by simp) ?_ ?_ ?_ c hc2
        · intro h2; simp at h2
        · intro l hl
          rw [List.mem_singleton] at hl
          rw [hl]
          exact hrest ln (by simp)
        · intro l hl; exact hrest l (List.mem_cons_of_mem _ hl)
    · next hcond =>
      push_neg at hcond
      refine ih (buf ++ [ln]) (acc + ln.length + 1) ?_ ?_ ?_ ?_ c hc
      · rw [hacc]; simp [List.sum_append]; omega
      · intro h2
        by_cases hb0 : buf = []
        · subst hb0; simp at h2
        · have := hcond hb0; omega
      · intro l hl
        rcases List.mem_append.mp hl with h | h
        · exact hbuf l h
        · rw [List.mem_singleton] at h
          rw [h]
          exact hrest ln (by simp)
      · intro l hl; exact hrest l (List.mem_cons_of_mem _ hl)

/-- Budget property of `_chunk_by_lines`. -/
theorem chunk_by_lines_budget (text : String) (max_chars : Nat) :
    ∀ c ∈ chunk_by_lines text max_chars,
      c.length ≤ max_chars ∨ c ∈ nonblankLines text ∨ c = text := by
  intro c hc
  simp only [chunk_by_lines] at hc
  split at hc
  · rw [List.mem_singleton] at hc
    exact Or.inr (Or.inr hc)
  · rcases packLines_budget max_chars (nonblankLines text) (nonblankLines text) [] 0
      rfl (fun h2 => by simp at h2) (by simp) (fun l hl => hl) c hc with h | h
    · exact Or.inl h
    · exact Or.inr (Or.inl h)

/-- A flushed buffer either fits the token budget or is a single input
line (token version). -/
theorem joined_buf_tok_ok (enc : String → Nat) (max_tokens : Nat)
    (L0 buf : List String) (hne : buf ≠ [])
    (hnl : ∀ l ∈ buf, '\n' ∉ l.data)
    (hbound : 2 ≤ buf.length → (buf.map enc).sum ≤ max_tokens)
    (hbuf : ∀ l ∈ buf, l ∈ L0) :
    tokenMeasure enc (pyJoinNl buf) ≤ max_tokens ∨ pyJoinNl buf ∈ L0 := by
  rcases buf with _ | ⟨l1, _ | ⟨l2, buf2⟩⟩
  · exact absurd rfl hne
  · right
    rw [pyJoinNl_singleton]
    exact hbuf l1 (by simp)
  · left
    have hround := pySplitlines_join (l1 :: l2 :: buf2) (by simp) hnl
    rw [tokenMeasure, hround]
    exact hbound (by simp only [List.length_cons]; omega)

/-- Invariant proof for the `_chunk_by_tokens` loop. -/
theorem packTokens_budget (enc : String → Nat) (max_tokens : Nat) (L0 : List String)
    (hL0 : ∀ l ∈ L0, '\n' ∉ l.data) :
    ∀ (rest buf : List String) (acc : Nat),
      acc = (buf.map enc).sum →
      (2 ≤ buf.length → acc ≤ max_tokens) →
      (∀ l ∈ buf, l ∈ L0) →
      (∀ l ∈ rest, l ∈ L0) →
      ∀ c ∈ packTokens enc max_tokens rest buf acc,
        tokenMeasure enc c ≤ max_tokens ∨ c ∈ L0 := by
  intro rest
  induction rest with
  | nil =>
    intro buf acc hacc hbound hbuf _ c hc
    simp only [packTokens] at hc
    split at hc
    · exact absurd hc (List.not_mem_nil c)
    · next h =>
      rw [List.mem_singleton] at hc
      subst hc
      refine joined_buf_tok_ok enc max_tokens L0 buf ?_ (fun l hl => hL0 l (hbuf l hl)) ?_ hbuf
      · simpa [List.isEmpty_iff] using h
      · intro h2; rw [← hacc]; exact hbound h2
  | cons ln rest ih =>
    intro buf acc hacc hbound hbuf hrest c hc
    simp only [packTokens] at hc
    split at hc
    · next hcond =>
      rcases List.mem_cons.mp hc with rfl | hc2
      · refine joined_buf_tok_ok enc max_tokens L0 buf hcond.1
          (fun l hl => hL0 l (hbuf l hl)) ?_ hbuf
        intro h2; rw [← hacc]; exact hbound h2
      · refine ih [ln] (enc ln) (by simp) ?_ ?_ ?_ c hc2
        · intro h2; simp at h2
        · intro l hl
          rw [List.mem_singleton] at hl
          rw [hl]
          exact hrest ln (by simp)
        · intro l hl; exact hrest l (List.mem_cons_of_mem _ hl)
    · next hcond =>
      push_neg at hcond
      refine ih (buf ++ [ln]) (acc + enc ln) ?_ ?_ ?_ ?_ c hc
      · rw [hacc]; simp [List.sum_append]
      · intro h2
        by_cases hb0 : buf = []
        · subst hb0; simp at h2
        · have := hcond hb0; omega
      · intro l hl
        rcases List.mem_append.mp hl with h | h
        · exact hbuf l h
        · rw [List.mem_singleton] at h
          rw [h]
          exact hrest ln (by simp)
      · intro l hl; exact hrest l (List.mem_cons_of_mem _ hl)

/-- Budget property of `_chunk_by_tokens` on the tokenizer path. -/
theorem chunk_by_tokens_budget (s : Summarizer) (tk : Tokenizer) (text : String)
    (max_tokens : Nat) (htk : s.tokenizerOf = some tk) :
    ∀ c ∈ chunk_by_tokens s text max_tokens,
      tokenMeasure tk.encode_len c ≤ max_tokens ∨ c ∈ nonblankLines text ∨ c = text := by
  intro c hc
  have heq : chunk_by_tokens s text max_tokens =
      (if (packTokens tk.encode_len max_tokens (nonblankLines text) [] 0).isEmpty
       then [text]
       else packTokens tk.encode_len max_tokens (nonblankLines text) [] 0) := by
    rw [chunk_by_tokens, htk]
  rw [heq] at hc
  split at hc
  · rw [List.mem_singleton] at hc
    exact Or.inr (Or.inr hc)
  · rcases packTokens_budget tk.encode_len max_tokens (nonblankLines text)
      (nonblankLines_no_nl text) (nonblankLines text) [] 0
      rfl (fun h2 => by simp at h2) (by simp) (fun l hl => hl) c hc with h | h
    · exact Or.inl h
    · exact Or.inr (Or.inl h)

/-- A newline-free chunk is its own single line, so its token measure is
its own estimate. -/
theorem tokenMeasure_single (enc : String → Nat) (c : String) (h : '\n' ∉ c.data) :
    tokenMeasure enc c = enc c := by
  have h1 := pySplitlines_join [c] (by simp) (by
    intro l hl
    rw [List.mem_singleton] at hl
    subst hl
    exact h)
  rw [pyJoinNl_singleton] at h1
  rw [tokenMeasure, h1]
  simp

/-- Counterexample to claim C1 as stated: a single line longer than the
budget is emitted as an oversized chunk (`_chunk_by_lines("aaaaa", 2)`
returns `["aaaaa"]`, 5 characters against a budget of 2). -/
theorem claim_C1_counterexample :
    ¬ ∀ c ∈ chunk_by_lines "aaaaa" 2, c.length ≤ 2 := by
  intro h
  have h1 := h "aaaaa" (by decide)
  have h5 : "aaaaa".length = 5 := rfl
  omega

/-- Claim C1 (amended): every chunk produced by `_chunk_by_tokens` measures
at most `max_tokens` by the packer's per-line estimate — unless it is a
single input line whose own estimate already exceeds the budget, or the
whole text returned by the empty-line fallback; likewise every chunk of
`_chunk_by_lines` has at most `max_chars` characters unless it is a single
over-budget input line or the whole-text fallback. -/
theorem claim_C1_amended (s : Summarizer) (tk : Tokenizer) (text : String)
    (max_tokens max_chars : Nat) (htk : s.tokenizerOf = some tk) :
    (∀ c ∈ chunk_by_tokens s text max_tokens,
      tokenMeasure tk.encode_len c ≤ max_tokens ∨
      (c ∈ nonblankLines text ∧ max_tokens < tk.encode_len c) ∨ c = text) ∧
    (∀ c ∈ chunk_by_lines text max_chars,
      c.length ≤ max_chars ∨
      (c ∈ nonblankLines text ∧ max_chars < c.length) ∨ c = text) := by
  constructor
  · intro c hc
    rcases chunk_by_tokens_budget s tk text max_tokens htk c hc with h | h | h
    · exact Or.inl h
    · by_cases hm : tokenMeasure tk.encode_len c ≤ max_tokens
      · exact Or.inl hm
      · refine Or.inr (Or.inl ⟨h, ?_⟩)
        rw [← tokenMeasure_single tk.encode_len c (nonblankLines_no_nl text c h)]
        omega
    · exact Or.inr (Or.inr h)
  · intro c hc
    rcases chunk_by_lines_budget text max_chars c hc with h | h | h
    · exact Or.inl h
    · by_cases hm : c.length ≤ max_chars
      · exact Or.inl hm
      · exact Or.inr (Or.inl ⟨h, by omega⟩)
    · exact Or.inr (Or.inr h)

/-- Witness for (amended) C1 at a concrete summarizer and text, exercising
the within-budget disjunct on both packers. -/
theorem claim_C1_witness :
    (tokenMeasure tok1.encode_len "hi\nyo" ≤ 7 ∨
      ("hi\nyo" ∈ nonblankLines "hi\nyo" ∧ 7 < tok1.encode_len "hi\nyo") ∨
      "hi\nyo" = "hi\nyo") ∧
    ("hi".length ≤ 5 ∨
      ("hi" ∈ nonblankLines "hi\nyo" ∧ 5 < "hi".length) ∨ "hi" = "hi\nyo") :=
  ⟨(claim_C1_amended sm1 tok1 "hi\nyo" 7 5 rfl).1 "hi\nyo" (by decide),
   (claim_C1_amended sm1 tok1 "hi\nyo" 7 5 rfl).2 "hi" (by decide)⟩

/-! ## Content preservation of the packers (claim C9) -/

/-- Splitting the chunks emitted by the `_chunk_by_lines` loop recovers the
buffered lines followed by the remaining lines. -/
theorem packLines_unchunk (max_chars : Nat) :
    ∀ (rest buf : List String) (acc : Nat),
      (∀ l ∈ buf, '\n' ∉ l.data) → (∀ l ∈ rest, '\n' ∉ l.data) →
      (packLines max_chars rest buf acc).flatMap pySplitlines = buf ++ rest := by
  intro rest
  induction rest with
  | nil =>
    intro buf acc hbuf _
    simp only [packLines]
    split
    · next h =>
      rw [List.isEmpty_iff] at h
      rw [h]
      simp
    · next h =>
      rw [List.isEmpty_iff] at h
      simp only [List.flatMap_cons, List.flatMap_nil, List.append_nil]
      rw [pySplitlines_join buf h hbuf]
  | cons ln rest ih =>
    intro buf acc hbuf hrest
    simp only [packLines]
    split
    · next hcond =>
      have hone : ∀ l ∈ [ln], '\n' ∉ l.data := by
        intro l hl
        rw [List.mem_singleton] at hl
        rw [hl]
        exact hrest ln (by simp)
      rw [List.flatMap_cons, pySplitlines_join buf hcond.1 hbuf,
        ih [ln] (ln.length + 1) hone (fun l hl => hrest l (List.mem_cons_of_mem _ hl))]
      simp
    · next hcond =>
      have happ : ∀ l ∈ buf ++ [ln], '\n' ∉ l.data := by
        intro l hl
        rcases List.mem_append.mp hl with h | h
        · exact hbuf l h
        · rw [List.mem_singleton] at h
          rw [h]
          exact hrest ln (by simp)
      rw [ih (buf ++ [ln]) (acc + ln.length + 1) happ
        (fun l hl => hrest l (List.mem_cons_of_mem _ hl))]
      simp

/-- Splitting the chunks emitted by the `_chunk_by_tokens` loop recovers
the buffered lines followed by the remaining lines. -/
theorem packTokens_unchunk (enc : String → Nat) (max_tokens : Nat) :
    ∀ (rest buf : List String) (acc : Nat),
      (∀ l ∈ buf, '\n' ∉ l.data) → (∀ l ∈ rest, '\n' ∉ l.data) →
      (packTokens enc max_tokens rest buf acc).flatMap pySplitlines = buf ++ rest := by
  intro rest
  induction rest with
  | nil =>
    intro buf acc hbuf _
    simp only [packTokens]
    split
    · next h =>
      rw [List.isEmpty_iff] at h
      rw [h]
      simp
    · next h =>
      rw [List.isEmpty_iff] at h
      simp only [List.flatMap_cons, List.flatMap_nil, List.append_nil]
      rw [pySplitlines_join buf h hbuf]
  | cons ln rest ih =>
    intro buf acc hbuf hrest
    simp only [packTokens]
    split
    · next hcond =>
      have hone : ∀ l ∈ [ln], '\n' ∉ l.data := by
        intro l hl
        rw [List.mem_singleton] at hl
        rw [hl]
        exact hrest ln (by simp)
      rw [List.flatMap_cons, pySplitlines_join buf hcond.1 hbuf,
        ih [ln] (enc ln) hone (fun l hl => hrest l (List.mem_cons_of_mem _ hl))]
      simp
    · next hcond =>
      have happ : ∀ l ∈ buf ++ [ln], '\n' ∉ l.data := by
        intro l hl
        rcases List.mem_append.mp hl with h | h
        · exact hbuf l h
        · rw [List.mem_singleton] at h
          rw [h]
          exact hrest ln (by simp)
      rw [ih (buf ++ [ln]) (acc + enc ln) happ
        (fun l hl => hrest l (List.mem_cons_of_mem _ hl))]
      simp

/-- `_chunk_by_lines` never returns an empty list. -/
theorem chunk_by_lines_ne_nil (text : String) (max_chars : Nat) :
    chunk_by_lines text max_chars ≠ [] := by
  rw [chunk_by_lines]
  split
  · simp
  · next h =>
    simpa [List.isEmpty_iff] using h

/-- `_chunk_by_tokens` never returns an empty list. -/
theorem chunk_by_tokens_ne_nil (s : Summarizer) (text : String) (max_tokens : Nat) :
    chunk_by_tokens s text max_tokens ≠ [] := by
  cases htk : s.tokenizerOf with
  | none =>
    have heq : chunk_by_tokens s text max_tokens = chunk_by_lines text (max_tokens * 4) := by
      rw [chunk_by_tokens, htk]
    rw [heq]
    exact chunk_by_lines_ne_nil text (max_tokens * 4)
  | some tk =>
    have heq : chunk_by_tokens s text max_tokens =
        (if (packTokens tk.encode_len max_tokens (nonblankLines text) [] 0).isEmpty
         then [text]
         else packTokens tk.encode_len max_tokens (nonblankLines text) [] 0) := by
      rw [chunk_by_tokens, htk]
    rw [heq]
    split
    · simp
    · next h =>
      simpa [List.isEmpty_iff] using h

/-- Content preservation for `_chunk_by_lines` on texts with at least one
non-blank line. -/
theorem chunk_by_lines_unchunk (text : String) (max_chars : Nat)
    (hne : nonblankLines text ≠ []) :
    (chunk_by_lines text max_chars).flatMap pySplitlines = nonblankLines text := by
  have hun := packLines_unchunk max_chars (nonblankLines text) [] 0
    (by simp) (nonblankLines_no_nl text)
  rw [List.nil_append] at hun
  rw [chunk_by_lines]
  split
  · next h =>
    rw [List.isEmpty_iff] at h
    rw [h] at hun
    simp at hun
    exact absurd hun hne
  · exact hun

/-- Content preservation for `_chunk_by_tokens` on texts with at least one
non-blank line (on either the tokenizer or the fallback path). -/
theorem chunk_by_tokens_unchunk (s : Summarizer) (text : String) (max_tokens : Nat)
    (hne : nonblankLines text ≠ []) :
    (chunk_by_tokens s text max_tokens).flatMap pySplitlines = nonblankLines text := by
  cases htk : s.tokenizerOf with
  | none =>
    have heq : chunk_by_tokens s text max_tokens = chunk_by_lines text (max_tokens * 4) := by
      rw [chunk_by_tokens, htk]
    rw [heq]
    exact chunk_by_lines_unchunk text (max_tokens * 4) hne
  | some tk =>
    have heq : chunk_by_tokens s text max_tokens =
        (if (packTokens tk.encode_len max_tokens (nonblankLines text) [] 0).isEmpty
         then [text]
         else packTokens tk.encode_len max_tokens (nonblankLines text) [] 0) := by
      rw [chunk_by_tokens, htk]
    rw [heq]
    have hun := packTokens_unchunk tk.encode_len max_tokens (nonblankLines text) [] 0
      (by simp) (nonblankLines_no_nl text)
    rw [List.nil_append] at hun
    split
    · next h =>
      rw [List.isEmpty_iff] at h
      rw [h] at hun
      simp at hun
      exact absurd hun hne
    · exact hun

/-- Counterexample to claim C9 as stated: on the whitespace-only text
`" "` the empty-line fallback returns the text itself, so re-splitting the
chunks yields the blank line `" "` while the input has no non-blank line at
all. -/
theorem claim_C9_counterexample :
    ¬ ((chunk_by_lines " " 4).flatMap pySplitlines = nonblankLines " ") := by
  decide

/-- Claim C9 (amended): both chunkers always return a nonempty list, and on
every input with at least one non-blank line, splitting the returned chunks
on newlines and concatenating in order yields exactly the input's non-blank
lines — none dropped, duplicated, or altered. -/
theorem claim_C9_amended (s : Summarizer) (text : String) (max_tokens max_chars : Nat) :
    chunk_by_tokens s text max_tokens ≠ [] ∧
    chunk_by_lines text max_chars ≠ [] ∧
    (nonblankLines text ≠ [] →
      (chunk_by_tokens s text max_tokens).flatMap pySplitlines = nonblankLines text ∧
      (chunk_by_lines text max_chars).flatMap pySplitlines = nonblankLines text) :=
  ⟨chunk_by_tokens_ne_nil s text max_tokens,
   chunk_by_lines_ne_nil text max_chars,
   fun hne => ⟨chunk_by_tokens_unchunk s text max_tokens hne,
     chunk_by_lines_unchunk text max_chars hne⟩⟩

/-- Witness for (amended) C9 at a concrete summarizer and text. -/
theorem claim_C9_witness :
    (chunk_by_tokens sm1 "hi\nyo" 7).flatMap pySplitlines = nonblankLines "hi\nyo" ∧
    (chunk_by_lines "hi\nyo" 5).flatMap pySplitlines = nonblankLines "hi\nyo" :=
  (claim_C9_amended sm1 "hi\nyo" 7 5).2.2 (by decide)

/-! ## Tokenizer-unavailable fallback (claim C7) -/

/-- Claim C7: when the pipeline's tokenizer is unavailable,
`_chunk_by_tokens` returns exactly `_chunk_by_lines(text, max_chars =
max_tokens * 4)`. -/
theorem claim_C7 (s : Summarizer) (text : String) (max_tokens : Nat)
    (htk : s.tokenizerOf = none) :
    chunk_by_tokens s text max_tokens = chunk_by_lines text (max_tokens * 4) := by
  rw [chunk_by_tokens, htk]

/-- Witness for C7 at the pipeline-less summarizer. -/
theorem claim_C7_witness :
    chunk_by_tokens sm0 "abc" 2 = chunk_by_lines "abc" 8 :=
  claim_C7 sm0 "abc" 2 rfl

/-! ## Safe truncation (claim C10) -/

/-- Right-stripping never lengthens a string. -/
theorem pyRstrip_length_le (s : String) : (pyRstrip s).length ≤ s.length := by
  rw [pyRstrip, strLength_mk, rstripChars]
  have h1 : (s.data.reverse.dropWhile Char.isWhitespace).length ≤ s.data.reverse.length :=
    (List.dropWhile_sublist Char.isWhitespace).length_le
  simp only [List.length_reverse] at h1 ⊢
  exact h1

/-- A nonnegative prefix slice has length at most the slice bound. -/
theorem pySliceTo_length_le (s : String) (n : Int) (hn : 0 ≤ n) :
    ((pySliceTo s n).length : Int) ≤ n := by
  rw [pySliceTo, if_neg (not_lt.mpr hn), strLength_mk]
  have h1 : (s.data.take n.toNat).length ≤ n.toNat := List.length_take_le ..
  omega

/-- Claim C10: for `limit ≥ 3`, `_safe_truncate` returns at most `limit`
characters; it returns the text unchanged exactly when it already fits, and
otherwise returns a string ending in `"..."`. -/
theorem claim_C10 (text : String) (limit : Int) (h3 : 3 ≤ limit) :
    ((safe_truncate text limit).length : Int) ≤ limit ∧
    (safe_truncate text limit = text ↔ (text.length : Int) ≤ limit) ∧
    (limit < (text.length : Int) →
      ∃ u, safe_truncate text limit = u ++ "...") := by
  rw [safe_truncate]
  split
  · next hle =>
    exact ⟨hle, ⟨fun _ => hle, fun _ => rfl⟩, fun hlt => absurd hle (by omega)⟩
  · next hgt =>
    push_neg at hgt
    have h1 : ((pySliceTo text (limit - 3)).length : Int) ≤ limit - 3 :=
      pySliceTo_length_le text _ (by omega)
    have h2 := pyRstrip_length_le (pySliceTo text (limit - 3))
    have hdots : ("..." : String).length = 3 := rfl
    have hlen : ((pyRstrip (pySliceTo text (limit - 3)) ++ "...").length : Int) ≤ limit := by
      rw [String.length_append, hdots]
      push_cast
      omega
    refine ⟨hlen, ⟨?_, ?_⟩, fun _ => ⟨_, rfl⟩⟩
    · intro heq
      have := congrArg String.length heq
      rw [String.length_append, hdots] at this
      omega
    · intro hle
      exact absurd hle (by omega)

/-- Witness for C10 at a concrete over-long text. -/
theorem claim_C10_witness :
    ((safe_truncate "abcdefgh" 5).length : Int) ≤ 5 ∧
    (safe_truncate "abcdefgh" 5 = "abcdefgh" ↔ (("abcdefgh" : String).length : Int) ≤ 5) ∧
    (5 < (("abcdefgh" : String).length : Int) →
      ∃ u, safe_truncate "abcdefgh" 5 = u ++ "...") :=
  claim_C10 "abcdefgh" 5 (by norm_num)

/-! ## Blank input handling of `summarize` (claim C8) -/

/-- Stripping an all-whitespace character sequence yields nothing. -/
theorem stripChars_eq_nil (cs : List Char) (h : ∀ c ∈ cs, c.isWhitespace) :
    stripChars cs = [] := by
  rw [stripChars, lstripChars, List.dropWhile_eq_nil_iff.mpr h]
  rfl

/-- Claim C8: on a `None`, empty, or all-whitespace input, `summarize`
returns exactly `"No content to summarize."`; this holds for every
summarizer state, so neither the pipeline nor the chunker is consulted. -/
theorem claim_C8 (s : Summarizer) (text : Option String)
    (h : text = none ∨ text = some "" ∨
      ∃ u, text = some u ∧ ∀ c ∈ u.data, c.isWhitespace) :
    summarize s text = "No content to summarize." := by
  have hstrip : pyStrip (text.getD "") = "" := by
    rcases h with rfl | rfl | ⟨u, rfl, hu⟩
    · rfl
    · rfl
    · rw [Option.getD_some, pyStrip, stripChars_eq_nil u.data hu]
  rw [summarize]
  simp [hstrip]

/-- Witness for C8 on the whitespace-only input `" "` with a live
pipeline. -/
theorem claim_C8_witness :
    summarize sm1 (some " ") = "No content to summarize." :=
  claim_C8 sm1 (some " ") (Or.inr (Or.inr ⟨" ", rfl, by decide⟩))

/-! ## Strip-invariance of the stripped non-blank lines (claim C4) -/

/-- Unfolding `splitOnNlCore` on a newline head. -/
theorem splitOnNlCore_cons_nl (cs : List Char) :
    splitOnNlCore ('\n' :: cs) = ([], (splitOnNlCore cs).1 :: (splitOnNlCore cs).2) := by
  simp [splitOnNlCore]

/-- Stripping ignores a leading whitespace character. -/
theorem stripChars_cons_ws (c : Char) (l : List Char) (hc : c.isWhitespace) :
    stripChars (c :: l) = stripChars l := by
  rw [stripChars, stripChars, lstripChars, lstripChars, List.dropWhile_cons_of_pos hc]

/-- Right-stripping ignores a trailing whitespace character. -/
theorem rstripChars_append_ws (l : List Char) (x : Char) (hx : x.isWhitespace) :
    rstripChars (l ++ [x]) = rstripChars l := by
  rw [rstripChars, rstripChars]
  simp [List.dropWhile_cons_of_pos hx]

/-- Right-stripping keeps a trailing non-whitespace character. -/
theorem rstripChars_append_nonws (l : List Char) (x : Char) (hx : ¬ x.isWhitespace) :
    rstripChars (l ++ [x]) = l ++ [x] := by
  rw [rstripChars]
  simp [List.dropWhile_cons_of_neg hx]

/-- `stripChars` yields `[]` exactly on all-whitespace sequences. -/
theorem stripChars_eq_nil_iff (l : List Char) :
    stripChars l = [] ↔ ∀ c ∈ l, c.isWhitespace := by
  constructor
  · intro h c hc
    rw [stripChars, rstripChars] at h
    have h2 : (lstripChars l).reverse.dropWhile Char.isWhitespace = [] := by
      have h3 := congrArg List.reverse h
      simpa using h3
    have hall : ∀ a ∈ (lstripChars l).reverse, a.isWhitespace :=
      List.dropWhile_eq_nil_iff.mp h2
    have hall2 : ∀ a ∈ lstripChars l, a.isWhitespace := by
      intro a ha
      exact hall a (List.mem_reverse.mpr ha)
    have hsplit := List.takeWhile_append_dropWhile Char.isWhitespace l
    rw [← hsplit] at hc
    rcases List.mem_append.mp hc with h4 | h4
    · exact List.mem_takeWhile_imp h4
    · exact hall2 c h4
  · exact stripChars_eq_nil l

/-- Stripping ignores a trailing whitespace character. -/
theorem stripChars_append_ws (l : List Char) (x : Char) (hx : x.isWhitespace) :
    stripChars (l ++ [x]) = stripChars l := by
  by_cases hall : ∀ c ∈ l, c.isWhitespace
  · rw [stripChars_eq_nil l hall, stripChars_eq_nil]
    intro c hc
    rcases List.mem_append.mp hc with h | h
    · exact hall c h
    · rw [List.mem_singleton] at h
      rw [h]
      exact hx
  · have hne : lstripChars l ≠ [] := by
      intro h0
      exact hall (List.dropWhile_eq_nil_iff.mp h0)
    have hstep : lstripChars (l ++ [x]) = lstripChars l ++ [x] := by
      have hcond : ¬ (l.dropWhile Char.isWhitespace).isEmpty = true := by
        rw [List.isEmpty_iff]
        exact hne
      rw [lstripChars, lstripChars, List.dropWhile_append, if_neg hcond]
    rw [stripChars, hstep, rstripChars_append_ws _ _ hx]
    rfl

/-- Appending a newline appends an empty final line. -/
theorem splitOnNlCore_append_nl (xs : List Char) :
    splitOnNlCore (xs ++ ['\n']) = ((splitOnNlCore xs).1, (splitOnNlCore xs).2 ++ [[]]) := by
  induction xs with
  | nil => simp [splitOnNlCore]
  | cons c xs ih =>
    by_cases hc : c = '\n'
    · subst hc
      rw [List.cons_append, splitOnNlCore_cons_nl, splitOnNlCore_cons_nl, ih]
      simp
    · rw [List.cons_append, splitOnNlCore_cons_ne _ _ hc, splitOnNlCore_cons_ne _ _ hc, ih]

/-- Appending a non-newline character extends the final line (core form). -/
theorem splitOnNlCore_append_ne (xs : List Char) (x : Char) (hx : ¬ x = '\n') :
    splitOnNlCore (xs ++ [x]) =
      (match (splitOnNlCore xs).2 with
       | [] => ((splitOnNlCore xs).1 ++ [x], [])
       | a :: t => ((splitOnNlCore xs).1, snocLast (a :: t) x)) := by
  induction xs with
  | nil =>
    rw [List.nil_append, splitOnNlCore_cons_ne _ _ hx]
    rfl
  | cons c xs ih =>
    by_cases hc : c = '\n'
    · subst hc
      rw [List.cons_append, splitOnNlCore_cons_nl, splitOnNlCore_cons_nl, ih]
      rcases hsp : (splitOnNlCore xs).2 with _ | ⟨a, t⟩
      · simp [snocLast]
      · simp [snocLast]
    · rw [List.cons_append, splitOnNlCore_cons_ne _ _ hc, splitOnNlCore_cons_ne _ _ hc, ih]
      rcases hsp : (splitOnNlCore xs).2 with _ | ⟨a, t⟩
      · simp
      · simp

/-- Appending a non-newline character extends the last line. -/
theorem splitOnNl_append_ne (xs : List Char) (x : Char) (hx : ¬ x = '\n') :
    splitOnNl (xs ++ [x]) = snocLast (splitOnNl xs) x := by
  rw [splitOnNl, splitOnNl, splitOnNlCore_append_ne xs x hx]
  rcases hsp : (splitOnNlCore xs).2 with _ | ⟨a, t⟩
  · simp [snocLast]
  · simp [snocLast]

/-- Cons unfolding of `nbslList`. -/
theorem nbslList_cons (l : List Char) (ls : List (List Char)) :
    nbslList (l :: ls) =
      (if stripChars l = [] then [] else [stripChars l]) ++ nbslList ls := by
  rw [nbslList, nbslList, List.filter_cons]
  by_cases h : stripChars l = []
  · simp [h]
  · simp [h]

/-- `nbslList` distributes over append. -/
theorem nbslList_append (ls1 ls2 : List (List Char)) :
    nbslList (ls1 ++ ls2) = nbslList ls1 ++ nbslList ls2 := by
  rw [nbslList, nbslList, nbslList, List.filter_append, List.map_append]

/-- Appending a whitespace character to the last line does not change the
stripped non-blank lines. -/
theorem nbslList_snocLast (ls : List (List Char)) (x : Char) (hx : x.isWhitespace) :
    nbslList (snocLast ls x) = nbslList ls := by
  induction ls with
  | nil =>
    simp only [snocLast]
    rw [nbslList_cons]
    rw [if_pos (stripChars_eq_nil [x] (by
      intro c hc
      rw [List.mem_singleton] at hc
      rw [hc]
      exact hx))]
    rfl
  | cons l ls ih =>
    cases ls with
    | nil =>
      simp only [snocLast]
      rw [nbslList_cons, nbslList_cons, stripChars_append_ws l x hx]
    | cons l2 ls2 =>
      simp only [snocLast]
      rw [nbslList_cons, nbslList_cons, ih]

/-- Appending a trailing newline does not change the stripped non-blank
lines. -/
theorem nbslList_append_nl (xs : List Char) :
    nbslList (splitOnNl (xs ++ ['\n'])) = nbslList (splitOnNl xs) := by
  rw [splitOnNl, splitOnNl, splitOnNlCore_append_nl, nbslList_cons, nbslList_cons,
    nbslList_append]
  rw [show nbslList [[]] = [] from rfl]
  simp

/-- Dropping a leading whitespace character does not change the stripped
non-blank lines. -/
theorem nbslList_cons_char_ws (c : Char) (cs : List Char) (hc : c.isWhitespace) :
    nbslList (splitOnNl (c :: cs)) = nbslList (splitOnNl cs) := by
  by_cases hnl : c = '\n'
  · subst hnl
    have h1 : splitOnNl ('\n' :: cs) = [] :: splitOnNl cs := by
      rw [splitOnNl, splitOnNlCore_cons_nl, splitOnNl]
    rw [h1, nbslList_cons, if_pos (show stripChars ([] : List Char) = [] from rfl),
      List.nil_append]
  · rw [splitOnNl, splitOnNlCore_cons_ne _ _ hnl, splitOnNl, nbslList_cons, nbslList_cons,
      stripChars_cons_ws c _ hc]

/-- Left-stripping the text does not change the stripped non-blank lines. -/
theorem nbslList_lstrip (cs : List Char) :
    nbslList (splitOnNl (lstripChars cs)) = nbslList (splitOnNl cs) := by
  induction cs with
  | nil => rfl
  | cons c cs ih =>
    by_cases hc : c.isWhitespace
    · rw [lstripChars, List.dropWhile_cons_of_pos hc,
        show cs.dropWhile Char.isWhitespace = lstripChars cs from rfl, ih,
        nbslList_cons_char_ws c cs hc]
    · rw [lstripChars, List.dropWhile_cons_of_neg hc]

/-- Right-stripping the text does not change the stripped non-blank
lines. -/
theorem nbslList_rstrip (cs : List Char) :
    nbslList (splitOnNl (rstripChars cs)) = nbslList (splitOnNl cs) := by
  induction cs using List.reverseRecOn with
  | nil => rfl
  | append_singleton xs x ih =>
    by_cases hx : x.isWhitespace
    · rw [rstripChars_append_ws xs x hx, ih]
      by_cases hnl : x = '\n'
      · subst hnl
        exact (nbslList_append_nl xs).symm
      · rw [splitOnNl_append_ne xs x hnl, nbslList_snocLast _ x hx]
    · rw [rstripChars_append_nonws xs x hx]

/-- Stripping the whole text does not change the stripped non-blank
lines. -/
theorem nbslList_strip (cs : List Char) :
    nbslList (splitOnNl (stripChars cs)) = nbslList (splitOnNl cs) := by
  rw [stripChars, nbslList_rstrip (lstripChars cs), nbslList_lstrip cs]

/-- If every line of a text strips to nothing, the whole text strips to
nothing. -/
theorem stripChars_eq_nil_of_lines (cs : List Char)
    (h : ∀ l ∈ splitOnNl cs, stripChars l = []) : stripChars cs = [] := by
  induction cs with
  | nil => rfl
  | cons c cs ih =>
    by_cases hnl : c = '\n'
    · subst hnl
      have h1 : ∀ l ∈ splitOnNl cs, stripChars l = [] := by
        intro l hl
        apply h
        rw [splitOnNl, splitOnNlCore_cons_nl]
        rw [splitOnNl] at hl
        exact List.mem_cons_of_mem _ hl
      rw [stripChars_cons_ws '\n' cs (by decide), ih h1]
    · have hfirst : stripChars (c :: (splitOnNlCore cs).1) = [] := by
        apply h
        rw [splitOnNl, splitOnNlCore_cons_ne _ _ hnl]
        exact List.mem_cons_self ..
      have hallws := (stripChars_eq_nil_iff _).mp hfirst
      have hc : c.isWhitespace := hallws c (by simp)
      have h1 : ∀ l ∈ splitOnNl cs, stripChars l = [] := by
        intro l hl
        rw [splitOnNl] at hl
        rcases List.mem_cons.mp hl with rfl | hl2
        · exact stripChars_eq_nil _ (fun a ha => hallws a (List.mem_cons_of_mem _ ha))
        · apply h
          rw [splitOnNl, splitOnNlCore_cons_ne _ _ hnl]
          exact List.mem_cons_of_mem _ hl2
      rw [stripChars_cons_ws c cs hc, ih h1]

/-- A text that does not strip to nothing has a non-blank line. -/
theorem nbslList_ne_nil (cs : List Char) (h : stripChars cs ≠ []) :
    nbslList (splitOnNl cs) ≠ [] := by
  intro h0
  apply h
  apply stripChars_eq_nil_of_lines
  intro l hl
  by_contra hne
  have hmem : stripChars l ∈ nbslList (splitOnNl cs) := by
    rw [nbslList]
    exact List.mem_map_of_mem _ (List.mem_filter.mpr ⟨hl, by simpa using hne⟩)
  rw [h0] at hmem
  exact List.not_mem_nil _ hmem

/-- The string-level stripped non-blank lines are the image of the
character-level ones. -/
theorem map_mk_nbsl (ls : List (List Char)) :
    ((ls.map String.mk).filter (fun s => pyStrip s ≠ "")).map pyStrip
      = (nbslList ls).map String.mk := by
  induction ls with
  | nil => rfl
  | cons l ls ih =>
    rw [nbslList_cons, List.map_cons, List.filter_cons]
    by_cases h : stripChars l = []
    · have h1 : pyStrip (String.mk l) = "" := by
        show String.mk (stripChars l) = ""
        rw [h]
      rw [if_neg (by simp [h1]), if_pos h, List.nil_append]
      exact ih
    · have h1 : pyStrip (String.mk l) ≠ "" := by
        show String.mk (stripChars l) ≠ ""
        intro h2
        apply h
        have h3 := congrArg String.data h2
        simpa using h3
      rw [if_pos (by simp [h1]), if_neg h, List.map_cons, ih, List.map_append]
      rfl

/-- Counterexample to claim C4 as stated: the input `" "` is a non-empty
text, yet with an unavailable pipeline `summarize` returns
`"No content to summarize."` rather than the (empty) join of its first
five stripped non-blank lines. -/
theorem claim_C4_counterexample :
    ¬ (summarize sm0 (some " ") =
      pyJoinNl ((((pySplitlines " ").filter (fun ln => pyStrip ln ≠ "")).map pyStrip).take 5)) := by
  decide

/-- Claim C4 (amended): for every input text that is non-empty after
stripping, when the model pipeline is unavailable (`self._pipe is None`),
`summarize` returns the extractive fallback — the first at most 5 stripped
non-blank lines of the input joined by newlines — and, the pipeline being
absent, never invokes a model. -/
theorem claim_C4_amended (s : Summarizer) (t : String)
    (hpipe : s.pipe = none) (hne : pyStrip t ≠ "") :
    summarize s (some t) =
      pyJoinNl ((((pySplitlines t).filter (fun ln => pyStrip ln ≠ "")).map pyStrip).take 5) := by
  have heq : summarize s (some t) = fallback_summary (pyStrip t) := by
    rw [summarize]
    simp only [Option.getD_some, hpipe]
    rw [if_neg hne]
  have hlines : ((pySplitlines (pyStrip t)).filter (fun ln => pyStrip ln ≠ "")).map pyStrip
      = ((pySplitlines t).filter (fun ln => pyStrip ln ≠ "")).map pyStrip := by
    rw [pySplitlines, pySplitlines, map_mk_nbsl, map_mk_nbsl,
      show (pyStrip t).data = stripChars t.data from rfl, nbslList_strip t.data]
  have h2 : stripChars t.data ≠ [] := by
    intro h3
    apply hne
    show String.mk (stripChars t.data) = ""
    rw [h3]
  have h4 := nbslList_ne_nil t.data h2
  have hcond : ¬ (((pySplitlines t).filter (fun ln => pyStrip ln ≠ "")).map pyStrip).isEmpty
      = true := by
    rw [List.isEmpty_iff, pySplitlines, map_mk_nbsl]
    simp only [List.map_eq_nil_iff]
    exact h4
  rw [heq]
  simp only [fallback_summary]
  rw [hlines, if_neg hcond]

/-- Witness for (amended) C4 at a concrete one-line input. -/
theorem claim_C4_witness :
    summarize sm0 (some "x") =
      pyJoinNl ((((pySplitlines "x").filter (fun ln => pyStrip ln ≠ "")).map pyStrip).take 5) :=
  claim_C4_amended sm0 "x" rfl (by decide)
